import Mathlib

/-!
Verification development for the sitemap/feed URL extractor of
`src/index.js` (`getSitemapUrls`).

The JavaScript source is shallowly embedded:
* the attribute-preserving XML tree produced by the external parser is the
  inductive `XNode`;
* JavaScript primitive values flowing into the date normalizer are `JsVal`
  (with `nanV` standing for the floating `NaN` and `Option Int` standing for
  "finite epoch milliseconds or not-a-time");
* the helpers `toTs`, `firstTs`, `includeByFrom` are translated line by line
  from `src/index.js` lines 13-53;
* the crawl loop (lines 85-384) becomes a small-step function `stepSt` on a
  state `St`, iterated by `run`; the external `fetch` collaborator is a
  finite association list `Graph`;
* the platform pieces that are not repository code (`new URL`, `Date.parse`)
  are modelled from the spec, as documented on `resolveURL` and `dateParse`.
-/

/-- The tree produced by the external XML parser for one document:
scalars (string / number / null), sequences and mappings.  Attributes appear
as plain keys and namespace prefixes are already stripped, as configured at
`src/index.js` lines 78-83. -/
inductive XNode where
  | nullN : XNode
  | strN : String → XNode
  | numN : Int → XNode
  | arrN : List XNode → XNode
  | objN : List (String × XNode) → XNode

/-- First binding of a key in a mapping's field list (JS property lookup). -/
def lookupF : List (String × XNode) → String → Option XNode
  | [], _ => none
  | (k', v) :: r, k => if k' = k then some v else lookupF r k

/-- JS property access `x.k`: defined on mappings, `undefined` otherwise. -/
def jsGet : XNode → String → Option XNode
  | .objN fs, k => lookupF fs k
  | _, _ => none

/-- Optional-chaining access `o?.k` (`none` models null/undefined). -/
def gG (o : Option XNode) (k : String) : Option XNode :=
  match o with
  | some x => jsGet x k
  | none => none

/-- JS truthiness of a parsed-tree value: `null`, `""` and `0` are falsy,
arrays and objects are always truthy. -/
def truthy : XNode → Bool
  | .nullN => false
  | .strN s => !(s == "")
  | .numN n => !(n == 0)
  | .arrN _ => true
  | .objN _ => true

/-- Truthiness of a possibly-absent value (undefined is falsy). -/
def truthyO : Option XNode → Bool
  | none => false
  | some x => truthy x

/-- JS `a || b` on possibly-absent values: `a` when truthy, else `b`. -/
def jsOr (a b : Option XNode) : Option XNode :=
  if truthyO a then a else b

/-- JS `a ?? b` (nullish coalescing): `b` exactly when `a` is
null/undefined. -/
def jsCoal (a b : Option XNode) : Option XNode :=
  match a with
  | none => b
  | some .nullN => b
  | _ => a

/-- JS `Array.isArray(x) ? x : [x]` on a present value, `[]` when absent. -/
def asArrayO : Option XNode → List XNode
  | some (.arrN xs) => xs
  | some x => [x]
  | none => []

/-- Drop leading whitespace characters. -/
def dropWsL : List Char → List Char
  | c :: r => if c.isWhitespace then dropWsL r else c :: r
  | [] => []

/-- Characters of a trimmed string: leading and trailing whitespace
removed. -/
def trimL (cs : List Char) : List Char :=
  (dropWsL (dropWsL cs).reverse).reverse

/-- JS `s.trim()` (kernel-computable replacement for the runtime one). -/
def jsTrim (s : String) : String := String.mk (trimL s.data)

/-- JS `s.toLowerCase()` (kernel-computable). -/
def lowerStr (s : String) : String := String.mk (s.data.map Char.toLower)

/-- Whether the first list is a prefix of the second. -/
def isPrefixL : List Char → List Char → Bool
  | [], _ => true
  | _ :: _, [] => false
  | a :: as, b :: bs => (a == b) && isPrefixL as bs

/-- Whether `w` is a suffix of `s` (kernel-computable `endsWith`). -/
def endsWithStr (s w : String) : Bool :=
  isPrefixL w.data.reverse s.data.reverse

/-- Join with commas (JS array stringification glue,
kernel-computable). -/
def joinComma : List String → String
  | [] => ""
  | [s] => s
  | s :: r => s ++ "," ++ joinComma r

mutual

/-- JS string conversion `String(v)` of a parsed-tree value (arrays join
their elements with commas, null elements printing as empty; objects print
as "[object Object]"). -/
def jsToString : XNode → String
  | .nullN => "null"
  | .strN s => s
  | .numN n => toString n
  | .arrN xs => joinComma (jsList xs)
  | .objN _ => "[object Object]"

def jsList : List XNode → List String
  | [] => []
  | .nullN :: rest => "" :: jsList rest
  | x :: rest => jsToString x :: jsList rest

end

/-- `String(v)` of a possibly-absent value (`String(undefined)`). -/
def jsToStringO : Option XNode → String
  | none => "undefined"
  | some x => jsToString x

/-- A JavaScript primitive value as received by the date normalizer `toTs`:
null/undefined, a string, a finite number, the floating NaN, a `Date`
(carrying its epoch-millisecond value), or a non-scalar parsed node. -/
inductive JsVal where
  | nullV : JsVal
  | strV : String → JsVal
  | numV : Int → JsVal
  | nanV : JsVal
  | dateV : Int → JsVal
  | nodeV : XNode → JsVal

/-- Reading a parsed-tree field as a `toTs` argument. -/
def fv : Option XNode → JsVal
  | none => .nullV
  | some .nullN => .nullV
  | some (.strN s) => .strV s
  | some (.numN n) => .numV n
  | some x => .nodeV x

/-- Reading a computed epoch-milliseconds-or-NaN number as a `toTs`
argument (used for the nested news/video timestamps at `src/index.js`
line 175). -/
def numJs : Option Int → JsVal
  | none => .nanV
  | some m => .numV m

/-- The seconds/milliseconds heuristic of `src/index.js` lines 16 and 22:
a numeric value strictly below 10^12 is read as epoch seconds and scaled
by 1000; otherwise it is passed through as milliseconds.  Note the
comparison is signed, not on the magnitude. -/
def scaleEpoch (n : Int) : Int :=
  if n < 1000000000000 then n * 1000 else n

/-- Digit characters of an epoch string, 9 to 13 of them. -/
def epochDigits (cs : List Char) : Bool :=
  cs.all Char.isDigit && decide (9 ≤ cs.length) && decide (cs.length ≤ 13)

/-- The regex `/^-?\d{9,13}$/` of `src/index.js` line 20: an optional
leading minus sign followed by 9-13 digits. -/
def epochShape (cs : List Char) : Bool :=
  match cs with
  | '-' :: r => epochDigits r
  | _ => epochDigits cs

/-- The regex `/^\d{8}$/` of `src/index.js` line 26. -/
def digits8 (cs : List Char) : Bool :=
  cs.all Char.isDigit && decide (cs.length = 8)

/-- The regex `/^\d{4}-\d{2}-\d{2}[ T]\d{2}:\d{2}:\d{2}$/` of
`src/index.js` line 35. -/
def ymdHmsShape (cs : List Char) : Bool :=
  match cs with
  | [y1, y2, y3, y4, h1, m1, m2, h2, d1, d2, sp, a1, a2, c1, b1, b2, c2, e1, e2] =>
    y1.isDigit && y2.isDigit && y3.isDigit && y4.isDigit &&
    (h1 == '-') && m1.isDigit && m2.isDigit && (h2 == '-') &&
    d1.isDigit && d2.isDigit && ((sp == ' ') || (sp == 'T')) &&
    a1.isDigit && a2.isDigit && (c1 == ':') &&
    b1.isDigit && b2.isDigit && (c2 == ':') &&
    e1.isDigit && e2.isDigit
  | _ => false

/-- Numeric value of a digit list (most significant first). -/
def digitsToNat (cs : List Char) : Nat :=
  cs.foldl (fun a c => a * 10 + (c.toNat - 48)) 0

/-- `Number(s)` for a matched epoch string: optional sign then digits. -/
def strToInt (cs : List Char) : Int :=
  match cs with
  | '-' :: r => -(digitsToNat r : Int)
  | _ => (digitsToNat cs : Int)

/-- Gregorian leap year. -/
def isLeap (y : Nat) : Bool :=
  decide ((y % 4 = 0 ∧ ¬ y % 100 = 0) ∨ y % 400 = 0)

/-- Days in a month of the proleptic Gregorian calendar. -/
def daysInMonth (y mo : Nat) : Nat :=
  if mo = 2 then (if isLeap y then 29 else 28)
  else if mo = 4 ∨ mo = 6 ∨ mo = 9 ∨ mo = 11 then 30
  else 31

/-- Days from 1970-01-01 to the civil date `y-mo-da` (valid for `y ≥ 1`),
the standard era-based computation. -/
def daysFromCivil (y mo da : Nat) : Int :=
  let y' := if mo ≤ 2 then y - 1 else y
  let era := y' / 400
  let yoe := y' - era * 400
  let mp := (mo + 9) % 12
  let doy := (153 * mp + 2) / 5 + da - 1
  let doe := yoe * 365 + yoe / 4 - yoe / 100 + doy
  ((era * 146097 + doe : Nat) : Int) - 719468

/-- Epoch milliseconds of a UTC civil datetime, `none` when any component is
out of range (the engine rejects such ISO strings). -/
def mkMs (y mo da hh mi ss : Nat) : Option Int :=
  if 1 ≤ mo ∧ mo ≤ 12 ∧ 1 ≤ da ∧ da ≤ daysInMonth y mo ∧ hh ≤ 23 ∧ mi ≤ 59 ∧ ss ≤ 59 then
    some (86400000 * daysFromCivil y mo da +
      3600000 * (hh : Int) + 60000 * (mi : Int) + 1000 * (ss : Int))
  else none

/-- Two-digit numeral. -/
def dig2 (a b : Char) : Nat := 10 * (a.toNat - 48) + (b.toNat - 48)

/-- Four-digit numeral. -/
def dig4 (a b c d : Char) : Nat :=
  1000 * (a.toNat - 48) + 100 * (b.toNat - 48) + 10 * (c.toNat - 48) + (d.toNat - 48)

/-- Modelled from the spec: the engine's general calendar-string parser
(`Date.parse`), a platform collaborator that is not repository code.  Per
spec section 4.1 it "covers RFC822/2822, ISO-8601 with zone, W3C-DTF"; the
source only ever constructs ISO strings with a `Z` zone (lines 30 and 36),
so the model accepts exactly the UTC-anchored ISO shapes `YYYY-MM-DD` and
`YYYY-MM-DDTHH:mm:ssZ` with in-range components, and treats every other
calendar shape as unparseable. -/
def dateParse (cs : List Char) : Option Int :=
  match cs with
  | [y1, y2, y3, y4, h1, m1, m2, h2, d1, d2] =>
    if y1.isDigit && y2.isDigit && y3.isDigit && y4.isDigit &&
        (h1 == '-') && m1.isDigit && m2.isDigit && (h2 == '-') &&
        d1.isDigit && d2.isDigit then
      mkMs (dig4 y1 y2 y3 y4) (dig2 m1 m2) (dig2 d1 d2) 0 0 0
    else none
  | [y1, y2, y3, y4, h1, m1, m2, h2, d1, d2, tc, a1, a2, c1, b1, b2, c2, e1, e2, zc] =>
    if y1.isDigit && y2.isDigit && y3.isDigit && y4.isDigit &&
        (h1 == '-') && m1.isDigit && m2.isDigit && (h2 == '-') &&
        d1.isDigit && d2.isDigit && (tc == 'T') &&
        a1.isDigit && a2.isDigit && (c1 == ':') &&
        b1.isDigit && b2.isDigit && (c2 == ':') &&
        e1.isDigit && e2.isDigit && (zc == 'Z') then
      mkMs (dig4 y1 y2 y3 y4) (dig2 m1 m2) (dig2 d1 d2)
        (dig2 a1 a2) (dig2 b1 b2) (dig2 e1 e2)
    else none
  | _ => none

/-- The 8-digit branch of `toTs` (`src/index.js` lines 26-32): slice
`YYYYMMDD` and hand `"YYYY-MM-DDT00:00:00Z"` to the calendar parser. -/
def iso8 (cs : List Char) : List Char :=
  match cs with
  | [a, b, c, d, e, f, g, h] =>
    [a, b, c, d, '-', e, f, '-', g, h] ++ String.toList "T00:00:00Z"
  | l => l

/-- The unzoned-datetime branch of `toTs` (`src/index.js` lines 35-38):
replace the space separator by `T` and append `Z`. -/
def toIsoZ (cs : List Char) : List Char :=
  cs.map (fun c => if c = ' ' then 'T' else c) ++ ['Z']

/-- String part of the date normalizer (`src/index.js` lines 17-42): trim,
then try the 9-13-digit epoch rule, the 8-digit `YYYYMMDD` rule, the
unzoned `YYYY-MM-DD HH:mm:ss` rule and finally the general calendar
parser, falling through whenever a rule does not yield a finite result. -/
def toTsStr (s : String) : Option Int :=
  let cs := trimL s.data
  if epochShape cs then some (scaleEpoch (strToInt cs))
  else
    match (if digits8 cs then dateParse (iso8 cs) else none) with
    | some t => some t
    | none =>
      match (if ymdHmsShape cs then dateParse (toIsoZ cs) else none) with
      | some t => some t
      | none => dateParse cs

/-- The timestamp normalizer `toTs` of `src/index.js` lines 13-43.
`none` models the not-a-time result `NaN`. -/
def toTs (v : JsVal) : Option Int :=
  match v with
  | .nullV => none
  | .strV s => if s = "" then none else toTsStr s
  | .dateV ms => some ms
  | .numV n => some (scaleEpoch n)
  | .nanV => none
  | .nodeV x => toTsStr (jsToString x)

/-- `firstTs` of `src/index.js` lines 45-51: first finite normalization in
a priority list, else not-a-time. -/
def firstTs : List JsVal → Option Int
  | [] => none
  | v :: r =>
    match toTs v with
    | some t => some t
    | none => firstTs r

/-- The inclusion predicate `includeByFrom` of `src/index.js` line 53:
true when no lower bound is active, otherwise true iff the timestamp is
finite and at least the bound. -/
def includeByFrom (ts fromTs : Option Int) : Bool :=
  match fromTs with
  | none => true
  | some f =>
    match ts with
    | none => false
    | some t => decide (f ≤ t)

/-- A leading URL scheme: one alphabetic character, then alphabetic
characters, then a colon. -/
def schemeTail : List Char → Bool
  | [] => false
  | c :: r => if c = ':' then true else if c.isAlpha then schemeTail r else false

/-- Whether a character list starts with a scheme. -/
def hasSchemeL : List Char → Bool
  | [] => false
  | c :: r => c.isAlpha && schemeTail r

/-- Whether a string is an absolute URL in the sense of spec section 8:
it "contains a scheme". -/
def hasScheme (s : String) : Bool := hasSchemeL s.data

/-- Modelled from the spec: the WHATWG URL resolver `new URL(ref, base)`
used throughout the source, a platform collaborator that is not repository
code.  Per spec sections 3 and 6, relative references are resolved against
the document's post-redirect base URL and resolution either yields an
absolute URL (one carrying a scheme) or fails (the source catches the
failure and drops the candidate).  The model trims the reference as every
call site does, keeps already-absolute references, joins relative ones to
an absolute base (the exact join syntax of WHATWG is abstracted), and fails
when no scheme is available. -/
def resolveURL (ref base : String) : Option String :=
  let r := jsTrim ref
  if hasScheme r then some r
  else if hasScheme base then some (base ++ "/" ++ r) else none

/-- Concatenated map, written recursively so the extractor proofs can
induct on entry lists directly. -/
def concatMap (f : α → List β) : List α → List β
  | [] => []
  | a :: r => f a ++ concatMap f r

/-- `ch?.item ? (Array.isArray(ch.item) ? ch.item : [ch.item]) : []`:
an entry list guarded by truthiness of the container field. -/
def truthyList (o : Option XNode) : List XNode :=
  if truthyO o then asArrayO o else []

/-- Location of a sitemap-index entry (`src/index.js` line 131):
`it?.loc || it?.link || (it?.url && it.url.loc)`. -/
def smiLoc (it : XNode) : Option XNode :=
  let u := jsGet it "url"
  jsOr (jsOr (jsGet it "loc") (jsGet it "link")) (if truthyO u then gG u "loc" else u)

/-- The sitemap-index extractor (`src/index.js` lines 127-139): resolve
each entry's location against the base and collect the ones not yet
visited, in document order; these are pushed onto the crawl queue and no
result URL is produced. -/
def smiPushList (visited : List String) (base : String) : List XNode → List String
  | [] => []
  | it :: rest =>
    let loc := smiLoc it
    if truthyO loc then
      match resolveURL (jsToStringO loc) base with
      | some abs => (if abs ∈ visited then [] else [abs]) ++ smiPushList visited base rest
      | none => smiPushList visited base rest
    else smiPushList visited base rest

/-- Best per-URL timestamp of a url-set entry (`src/index.js` lines
150-175): the `lastmod` family by nullish coalescing, then the Google News
fields, then the Google Video fields, each list scanned by `firstTs`; the
nested results feed back through `toTs` as bare numbers. -/
def urlsetTs (it : XNode) : Option Int :=
  let lastmod := jsCoal (jsGet it "lastmod") (jsCoal (jsGet it "lastModified")
    (jsCoal (jsGet it "modified") (jsGet it "changeDate")))
  let newsNode := jsOr (jsGet it "news") (jsGet it "news_news")
  let newsTs := firstTs [fv (gG newsNode "publication_date"), fv (gG newsNode "published"),
    fv (gG newsNode "updated"), fv (gG newsNode "pubDate"), fv (jsGet it "news:publication_date")]
  let vid := jsOr (jsGet it "video") (jsGet it "video_video")
  let videoTs := firstTs [fv (gG vid "publication_date"), fv (gG vid "upload_date"),
    fv (gG vid "expiration_date"), fv (gG vid "live_stream_start_time"),
    fv (gG vid "live_stream_end_time"), fv (gG vid "release_date")]
  firstTs [fv lastmod, numJs newsTs, numJs videoTs]

/-- Alternate-link href of a url-set child link
(`src/index.js` line 205): `l?.href ?? l?.["@_href"] ?? l?.url ?? null`. -/
def hrefOfAlt (l : XNode) : Option XNode :=
  jsCoal (jsGet l "href") (jsCoal (jsGet l "@_href") (jsGet l "url"))

/-- Alternate-link relation of a url-set child link (`src/index.js` line
206): `(l?.rel ?? l?.["@_rel"] ?? "alternate").toLowerCase()` (the model
stringifies leniently before lowercasing). -/
def relOfUrlsetAlt (l : XNode) : String :=
  lowerStr (jsToStringO (jsCoal (jsGet l "rel")
    (jsCoal (jsGet l "@_rel") (some (.strN "alternate")))))

/-- The link list of a url-set entry (`src/index.js` lines 201-202):
`it?.xhtml_link || it?.xhtml || it?.link`, wrapped as an array. -/
def urlsetLinks (it : XNode) : List XNode :=
  let xh := jsOr (jsOr (jsGet it "xhtml_link") (jsGet it "xhtml")) (jsGet it "link")
  match xh with
  | some (.arrN xs) => xs
  | some x => if truthy x then [x] else []
  | none => []

/-- Alternate emissions of one url-set entry (`src/index.js` lines
203-218).  The source checks the dedup set before the inclusion predicate;
since the predicate does not read the mutable state, emissions are
collected purely here (dedup is applied when they are appended). -/
def urlsetAltEmits (fromTs urlTs : Option Int) (base : String) : List XNode → List String
  | [] => []
  | l :: rest =>
    let href := hrefOfAlt l
    let rel := relOfUrlsetAlt l
    if truthyO href && (rel == "alternate") then
      match resolveURL (jsToStringO href) base with
      | some absAlt =>
        (if includeByFrom urlTs fromTs then [absAlt] else []) ++
          urlsetAltEmits fromTs urlTs base rest
      | none => urlsetAltEmits fromTs urlTs base rest
    else urlsetAltEmits fromTs urlTs base rest

/-- Emissions of one url-set entry (`src/index.js` lines 146-219): decide
inclusion from the location and (when a bound is active) the entry's best
timestamp, then emit the resolved primary location followed by the
qualifying alternates. -/
def urlsetEntryEmits (fromTs : Option Int) (base : String) (it : XNode) : List String :=
  let loc := jsGet it "loc"
  let urlTs := urlsetTs it
  let keep :=
    match fromTs with
    | none => truthyO loc
    | some _ => truthyO loc && includeByFrom urlTs fromTs
  if keep then
    (match resolveURL (jsToStringO loc) base with
     | some abs => [abs]
     | none => []) ++ urlsetAltEmits fromTs urlTs base (urlsetLinks it)
  else []

/-- Timestamp priority of an RSS item (`src/index.js` line 230). -/
def rssTs (it : XNode) : Option Int :=
  firstTs [fv (jsGet it "pubDate"), fv (jsGet it "updated"), fv (jsGet it "date"),
    fv (jsGet it "dc:date"), fv (jsGet it "dcterms:modified"), fv (jsGet it "issued")]

/-- Emissions of one RSS item (`src/index.js` lines 228-241). -/
def rssItemEmit (fromTs : Option Int) (base : String) (it : XNode) : List String :=
  let link := jsOr (jsOr (jsGet it "link") (gG (jsGet it "enclosure") "url")) (jsGet it "guid")
  if !truthyO link then []
  else if !includeByFrom (rssTs it) fromTs then []
  else (resolveURL (jsToStringO link) base).toList

/-- Href of an Atom link object (`src/index.js` line 256):
`l?.href || l?.["@_href"]`. -/
def hrefOfL (l : XNode) : Option XNode :=
  jsOr (jsGet l "href") (jsGet l "@_href")

/-- Relation of an Atom link object (`src/index.js` line 255):
`(l?.rel || l?.["@_rel"] || "alternate").toLowerCase()` (the model
stringifies leniently before lowercasing). -/
def relOfL (l : XNode) : String :=
  lowerStr (jsToStringO (jsOr (jsGet l "rel") (jsOr (jsGet l "@_rel") (some (.strN "alternate")))))

/-- The Atom link-selection loop (`src/index.js` lines 253-262): keep the
first truthy href as the default, and stop at the first link whose
relation is `alternate` and which carries a truthy href. -/
def chooseLink : List XNode → Option XNode → Option XNode
  | [], chosen => chosen
  | l :: rest, chosen =>
    let rel := relOfL l
    let href := hrefOfL l
    let chosen1 := if truthyO chosen then chosen else href
    if (rel == "alternate") && truthyO href then href
    else chooseLink rest chosen1

/-- Timestamp priority of an Atom entry (`src/index.js` lines 270-279). -/
def atomTs (it : XNode) : Option Int :=
  firstTs [fv (jsGet it "updated"), fv (jsGet it "published"), fv (jsGet it "issued"),
    fv (jsGet it "dc:date"), fv (jsGet it "dcterms:modified"),
    fv (jsGet it "updated_at"), fv (jsGet it "created_at")]

/-- Link value of an Atom entry (`src/index.js` lines 250-268): a list of
link objects goes through the selection loop, a single object yields its
href, a plain string stands for itself, anything else yields null. -/
def atomLinkVal (it : XNode) : Option XNode :=
  match jsGet it "link" with
  | some (.arrN xs) => chooseLink xs none
  | some (.objN fs) => jsOr (jsGet (.objN fs) "href") (jsGet (.objN fs) "@_href")
  | some (.strN s) => some (.strN s)
  | _ => none

/-- Emissions of one Atom entry (`src/index.js` lines 249-291). -/
def atomEntryEmit (fromTs : Option Int) (base : String) (it : XNode) : List String :=
  let linkVal := atomLinkVal it
  if !truthyO linkVal then []
  else if !includeByFrom (atomTs it) fromTs then []
  else (resolveURL (jsToStringO linkVal) base).toList

/-- Timestamp priority of an RDF item (`src/index.js` line 301). -/
def rdfTs (it : XNode) : Option Int :=
  firstTs [fv (jsGet it "dc:date"), fv (jsGet it "dcterms:modified"),
    fv (jsGet it "pubDate"), fv (jsGet it "date"), fv (jsGet it "issued")]

/-- Emissions of one RDF item (`src/index.js` lines 299-312). -/
def rdfItemEmit (fromTs : Option Int) (base : String) (it : XNode) : List String :=
  let link := jsOr (jsOr (jsOr (jsGet it "link") (jsGet it "rss:link"))
    (jsGet it "rdf:about")) (jsGet it "guid")
  if !truthyO link then []
  else if !includeByFrom (rdfTs it) fromTs then []
  else (resolveURL (jsToStringO link) base).toList

/-- Keys matching `/(^|:)(loc|url|link|href|canonical|@href|@_href)$/i`
(`src/index.js` line 323). -/
def keyMatchTail (k w : String) : Bool :=
  let lk := lowerStr k
  (lk == w) || endsWithStr lk (":" ++ w)

/-- Word list of the URL-key pattern. -/
def urlKeyWords : List String :=
  ["loc", "url", "link", "href", "canonical", "@href", "@_href"]

/-- URL-like key test of the generic fallback. -/
def urlKeyLike (k : String) : Bool :=
  urlKeyWords.any (keyMatchTail k)

/-- Word list of the date-key pattern (`src/index.js` lines 321-322). -/
def dateKeyWords : List String :=
  ["lastmod", "updated", "pubdate", "date", "modified", "issued", "created",
    "time", "timestamp", "publication_date", "upload_date", "expiration_date",
    "release_date"]

/-- Date-like key test of the generic fallback. -/
def dateKeyLike (k : String) : Bool :=
  dateKeyWords.any (keyMatchTail k)

/-- Characters of the path alternative of the URL-value pattern
(`src/index.js` line 320). -/
def pathChar (c : Char) : Bool :=
  c.isAlpha || c.isDigit ||
    ['.', '_', '~', '!', '$', '&', '\'', '(', ')', '*', '+', ',', ';', '=',
      ':', '@', '/', '%', '-'].contains c

/-- Letters followed by `://` (the scheme alternative, under `/i`). -/
def schemeRest : List Char → Bool
  | ':' :: '/' :: '/' :: _ => true
  | c :: r => c.isAlpha && schemeRest r
  | [] => false

/-- The URL-value pattern
`/^(https?:)?\/\/|^[a-z]+:\/\/|^\/[A-Za-z0-9._~!$&'()*+,;=:@\/%-]+/i` of
`src/index.js` line 320. -/
def urlLikeStr (sv : String) : Bool :=
  match (lowerStr sv).data with
  | '/' :: '/' :: _ => true
  | '/' :: c :: _ => pathChar c
  | c :: r => c.isAlpha && schemeRest r
  | [] => false

/-- Prefix shape `/^\d{4}-\d{2}-\d{2}/`. -/
def ymdPrefix : List Char → Bool
  | a :: b :: c :: d :: h1 :: e :: f :: h2 :: g :: h :: _ =>
    a.isDigit && b.isDigit && c.isDigit && d.isDigit && (h1 == '-') &&
    e.isDigit && f.isDigit && (h2 == '-') && g.isDigit && h.isDigit
  | _ => false

/-- Require at least one whitespace character, then skip the run (`\s+`). -/
def ws1 : List Char → Option (List Char)
  | c :: r => if c.isWhitespace then some (dropWsL r) else none
  | [] => none

/-- Consume one or two digits (`\d{1,2}`). -/
def digits12 : List Char → Option (List Char)
  | a :: b :: r => if a.isDigit then (if b.isDigit then some r else some (b :: r)) else none
  | [a] => if a.isDigit then some [] else none
  | [] => none

/-- Shape `/^[A-Z][a-z]{2},/`. -/
def weekdayComma : List Char → Bool
  | c1 :: c2 :: c3 :: ',' :: _ => c1.isUpper && c2.isLower && c3.isLower
  | _ => false

/-- Shape `/^[A-Z][a-z]{2}\s+\d{1,2},\s+\d{4}/`. -/
def monthNameShape : List Char → Bool
  | c1 :: c2 :: c3 :: rest =>
    c1.isUpper && c2.isLower && c3.isLower &&
    (match ws1 rest with
     | some r1 =>
       (match digits12 r1 with
        | some (',' :: r2) =>
          (match ws1 r2 with
           | some (a :: b :: c :: d :: _) =>
             a.isDigit && b.isDigit && c.isDigit && d.isDigit
           | _ => false)
        | _ => false)
     | none => false)
  | _ => false

/-- The date-like value shapes of the generic fallback (`src/index.js`
lines 349-353). -/
def dateShapeVal (sv : String) : Bool :=
  let cs := sv.toList
  epochShape cs || digits8 cs || ymdPrefix cs || weekdayComma cs || monthNameShape cs

/-- Object-valued children are queued for traversal
(`v && typeof v === "object"`, `src/index.js` line 337). -/
def isObjLike : XNode → Bool
  | .arrN _ => true
  | .objN _ => true
  | _ => false

/-- One scan over a node's scalar children (`src/index.js` lines 341-357):
first URL-like and first date-like fields win (an empty-string find is
falsy and can still be overwritten, exactly as in the source). -/
def scanFound : List (String × XNode) → String → String → String × String
  | [], fu, fd => (fu, fd)
  | (k, v) :: rest, fu, fd =>
    let sv := jsTrim (match v with
      | .nullN => ""
      | x => jsToString x)
    let fu' := if (fu == "") && (urlKeyLike k || urlLikeStr sv) then sv else fu
    let fd' := if (fd == "") && (dateKeyLike k || dateShapeVal sv) then sv else fd
    scanFound rest fu' fd'

mutual

/-- Structural size of a parsed-tree node, for the walker's termination
measure. -/
def sizeX : XNode → Nat
  | .arrN xs => 1 + sizeXL xs
  | .objN fs => 1 + sizeXF fs
  | _ => 1

/-- Total size of a node list. -/
def sizeXL : List XNode → Nat
  | [] => 0
  | x :: r => sizeX x + sizeXL r

/-- Total size of a field list. -/
def sizeXF : List (String × XNode) → Nat
  | [] => 0
  | kv :: r => sizeX kv.2 + sizeXF r

end

theorem sizeXL_append (a b : List XNode) : sizeXL (a ++ b) = sizeXL a + sizeXL b := by
  induction a with
  | nil => simp [sizeXL]
  | cons x r ih => simp [sizeXL, ih]; omega

theorem sizeXL_reverse (a : List XNode) : sizeXL a.reverse = sizeXL a := by
  induction a with
  | nil => rfl
  | cons x r ih => simp [sizeXL, List.reverse_cons, sizeXL_append, ih]; omega

theorem sizeXL_filterSnd (p : String × XNode → Bool) (fs : List (String × XNode)) :
    sizeXL ((fs.filter p).map Prod.snd) ≤ sizeXF fs := by
  induction fs with
  | nil => simp [sizeXL, sizeXF]
  | cons kv r ih =>
    by_cases h : p kv = true
    · simp [List.filter_cons, h, sizeXL, sizeXF]; omega
    · simp only [List.filter_cons, Bool.not_eq_true] at *
      simp [h, sizeXF]
      omega

/-- The generic-fallback extractor (`src/index.js` lines 316-381): an
explicit work-stack traversal of the whole tree; arrays push their
elements, mappings push their object-valued children and emit from their
scalar children per the URL-like/date-like scan; last-pushed is visited
first, as in the source. -/
theorem sizeX_pos (x : XNode) : 1 ≤ sizeX x := by
  cases x <;> simp [sizeX]

def genEmits (fromTs : Option Int) (base : String) : List XNode → List String
  | [] => []
  | .arrN xs :: stack => genEmits fromTs base (xs.reverse ++ stack)
  | .objN fs :: stack =>
    let objs := (fs.filter (fun kv => isObjLike kv.2)).map Prod.snd
    let scalars := fs.filter (fun kv => !isObjLike kv.2)
    let found := scanFound scalars "" ""
    let here :=
      if found.1 == "" then []
      else
        match fromTs with
        | none => (resolveURL found.1 base).toList
        | some f =>
          if !(found.2 == "") && includeByFrom (toTs (.strV found.2)) (some f) then
            (resolveURL found.1 base).toList
          else []
    here ++ genEmits fromTs base (objs.reverse ++ stack)
  | node :: stack => genEmits fromTs base stack
termination_by s => sizeXL s
decreasing_by
  · simp only [sizeXL, sizeXL_append, sizeXL_reverse, sizeX]
    omega
  · simp only [sizeXL, sizeXL_append, sizeXL_reverse, sizeX]
    have := sizeXL_filterSnd (fun kv => isObjLike kv.2) fs
    omega
  · simp only [sizeXL]
    have := sizeX_pos node
    omega

/-- The six extraction strategies of spec section 4.2. -/
inductive Dialect where
  | sitemapIndex : Dialect
  | urlset : Dialect
  | rss : Dialect
  | atom : Dialect
  | rdf : Dialect
  | generic : Dialect
deriving DecidableEq

/-- The dialect classifier: the guard chain of `src/index.js` lines 127,
143, 224, 246 and 296, in source order.  Note that the first three guards
require the container key and its primary child
(`sitemapindex.sitemap`, `urlset.url`, `rss.channel`) to be present and
truthy, while Atom and RDF match on the root key alone. -/
def classify (data : XNode) : Dialect :=
  if truthyO (gG (jsGet data "sitemapindex") "sitemap") then .sitemapIndex
  else if truthyO (gG (jsGet data "urlset") "url") then .urlset
  else if truthyO (gG (jsGet data "rss") "channel") then .rss
  else if truthyO (jsGet data "feed") then .atom
  else if truthyO (jsGet data "RDF") || truthyO (jsGet data "rdf") ||
      truthyO (jsGet data "rdf:RDF") then .rdf
  else .generic

/-- Result emissions of one document, per the guard chain of the source
loop body (`src/index.js` lines 143-381); the sitemap-index dialect emits
no results.  Emissions are the candidate URLs that pass every filter of
their extractor, in source emission order, before deduplication. -/
def docEmissions (fromTs : Option Int) (base : String) (data : XNode) : List String :=
  if truthyO (gG (jsGet data "urlset") "url") then
    concatMap (urlsetEntryEmits fromTs base) (asArrayO (gG (jsGet data "urlset") "url"))
  else if truthyO (gG (jsGet data "rss") "channel") then
    concatMap (rssItemEmit fromTs base) (truthyList (gG (gG (jsGet data "rss") "channel") "item"))
  else if truthyO (jsGet data "feed") then
    concatMap (atomEntryEmit fromTs base) (truthyList (gG (jsGet data "feed") "entry"))
  else if truthyO (jsGet data "RDF") || truthyO (jsGet data "rdf") ||
      truthyO (jsGet data "rdf:RDF") then
    concatMap (rdfItemEmit fromTs base)
      (truthyList (gG (jsOr (jsOr (jsGet data "RDF") (jsGet data "rdf"))
        (jsGet data "rdf:RDF")) "item"))
  else genEmits fromTs base [data]

/-- Crawl state: the work queue (head is the next `pop`), the visited set,
the result dedup set, the ordered results, plus two traces used by the
statements: `fetched` records each fetch attempt, `emitted` records each
candidate emission before deduplication. -/
structure St where
  queue : List String
  visited : List String
  seen : List String
  results : List String
  fetched : List String
  emitted : List String

/-- Appending one candidate URL (`src/index.js` lines 193-196 and the
analogous sites): record the emission, and push the URL to the results if
it is not in the dedup set. -/
def emitResult (st : St) (a : String) : St :=
  if a ∈ st.seen then { st with emitted := st.emitted ++ [a] }
  else { st with emitted := st.emitted ++ [a], seen := a :: st.seen,
                 results := st.results ++ [a] }

/-- Appending a list of candidates in order. -/
def emitAll : St → List String → St
  | st, [] => st
  | st, c :: cs => emitAll (emitResult st c) cs

/-- Processing one successfully parsed document: a sitemap index pushes its
unvisited children onto the queue (LIFO: last pushed is popped first, hence
the reverse onto the head-is-top queue); every other dialect appends its
emissions to the results. -/
def processDoc (fromTs : Option Int) (base : String) (data : XNode) (st : St) : St :=
  if truthyO (gG (jsGet data "sitemapindex") "sitemap") then
    { st with queue :=
        (smiPushList st.visited base (asArrayO (gG (jsGet data "sitemapindex") "sitemap"))).reverse
          ++ st.queue }
  else emitAll st (docEmissions fromTs base data)

/-- The claim-side dispatch: one extraction strategy per dialect tag. -/
def applyDialect (dl : Dialect) (fromTs : Option Int) (base : String)
    (data : XNode) (st : St) : St :=
  match dl with
  | .sitemapIndex =>
    { st with queue :=
        (smiPushList st.visited base (asArrayO (gG (jsGet data "sitemapindex") "sitemap"))).reverse
          ++ st.queue }
  | .urlset =>
    emitAll st (concatMap (urlsetEntryEmits fromTs base) (asArrayO (gG (jsGet data "urlset") "url")))
  | .rss =>
    emitAll st (concatMap (rssItemEmit fromTs base)
      (truthyList (gG (gG (jsGet data "rss") "channel") "item")))
  | .atom =>
    emitAll st (concatMap (atomEntryEmit fromTs base) (truthyList (gG (jsGet data "feed") "entry")))
  | .rdf =>
    emitAll st (concatMap (rdfItemEmit fromTs base)
      (truthyList (gG (jsOr (jsOr (jsGet data "RDF") (jsGet data "rdf"))
        (jsGet data "rdf:RDF")) "item")))
  | .generic => emitAll st (genEmits fromTs base [data])

/-- One fetched document as delivered by the external fetch/decode/parse
collaborators: the post-redirect URL (`res.url`) and the parsed tree. -/
structure FetchOk where
  finalUrl : String
  doc : XNode

/-- The fetch collaborator: a finite map from URL to either a parsed
document or a failure (network error, non-success status, bad parse are
all skips at `src/index.js` lines 96-121 and collapse to `none`;
an unmapped URL also fails). -/
abbrev Graph := List (String × Option FetchOk)

/-- Fetching one URL from the graph. -/
def findG : Graph → String → Option FetchOk
  | [], _ => none
  | (u, r) :: rest, c => if u = c then r else findG rest c

/-- One iteration of the crawl loop (`src/index.js` lines 90-382): pop,
skip empty or already-visited URLs, mark visited, attempt the fetch
(recorded in the `fetched` trace), and on success process the document
against its post-redirect base (`res.url || current`, line 123). -/
def stepSt (g : Graph) (fromTs : Option Int) (st : St) : St :=
  match st.queue with
  | [] => st
  | current :: q =>
    if current = "" ∨ current ∈ st.visited then { st with queue := q }
    else
      let st1 : St :=
        { st with queue := q, visited := current :: st.visited, fetched := st.fetched ++ [current] }
      match findG g current with
      | none => st1
      | some fr =>
        let base := if fr.finalUrl = "" then current else fr.finalUrl
        processDoc fromTs base fr.doc st1

/-- Iterating the loop for a given amount of fuel, stopping when the queue
is empty. -/
def run (g : Graph) (fromTs : Option Int) : Nat → St → St
  | 0, st => st
  | fuel + 1, st =>
    match st.queue with
    | [] => st
    | _ :: _ => run g fromTs fuel (stepSt g fromTs st)

/-- Sitemap-index entries of a document (`[]` for other dialects); bounds
the number of URLs one visit can push. -/
def smiEntriesOf (d : XNode) : List XNode :=
  asArrayO (gG (jsGet d "sitemapindex") "sitemap")

/-- Push-capacity of one graph entry. -/
def entKey : String × Option FetchOk → Nat
  | (_, none) => 0
  | (_, some fr) => (smiEntriesOf fr.doc).length

/-- Total push capacity of the graph. -/
def Kg (g : Graph) : Nat := (g.map entKey).sum

/-- Number of fetchable URLs not yet visited. -/
def unvisited (g : Graph) (visited : List String) : Nat :=
  ((g.map Prod.fst).filter (fun u => decide (u ∉ visited))).length

/-- Termination measure of the crawl loop: every skip shortens the queue,
and every real visit removes a fetchable URL from the unvisited pool while
pushing at most `Kg g` children. -/
def meas (g : Graph) (st : St) : Nat :=
  (Kg g + 2) * unvisited g st.visited + st.queue.length

/-- Initial crawl state (`src/index.js` lines 85-88). -/
def initSt (url : String) : St := ⟨[url], [], [], [], [], []⟩

/-- The whole traversal: iterate from the initial state with provably
sufficient fuel. -/
def crawlG (g : Graph) (fromTs : Option Int) (url : String) : St :=
  run g fromTs (meas g (initSt url)) (initSt url)

/-- `fromDate == null || fromDate === ""` (`src/index.js` line 73):
omitted, null/undefined, or the empty string. -/
def isNullOrEmptyFD : Option JsVal → Bool
  | none => true
  | some .nullV => true
  | some (.strV s) => s == ""
  | some _ => false

/-- The public operation (`src/index.js` lines 11-76 and 384), returning
the final crawl state: compute the lower bound, reject an unparseable
provided `fromDate` before any crawl state exists, then run the
traversal. -/
def getSitemapUrlsT (g : Graph) (xmlUrl : String) (fromDate : Option JsVal) :
    Except String St :=
  if isNullOrEmptyFD fromDate then .ok (crawlG g none xmlUrl)
  else
    match fromDate with
    | some v =>
      match toTs v with
      | none => .error "Invalid \"fromDate\""
      | some t => .ok (crawlG g (some t) xmlUrl)
    | none => .ok (crawlG g none xmlUrl)

/-- Fetch attempts of a finished call: none when the call rejected. -/
def fetchesOf : Except String St → List String
  | .error _ => []
  | .ok st => st.fetched

/-- The public operation's return value: the deduped absolute URLs. -/
def getSitemapUrls (g : Graph) (xmlUrl : String) (fromDate : Option JsVal) :
    Except String (List String) :=
  (getSitemapUrlsT g xmlUrl fromDate).map St.results

/-- First-occurrence deduplication, accumulator form: the reference
description of how the result list relates to the emission trace. -/
def dkfA (seen : List String) : List String → List String
  | [] => []
  | x :: xs => if x ∈ seen then dkfA seen xs else x :: dkfA (x :: seen) xs

/-- First-occurrence deduplication of an emission trace. -/
def dedupKeepFirst (l : List String) : List String := dkfA [] l

/-- The Atom alternate-with-href test used by the link-selection loop. -/
def isAltHref (l : XNode) : Bool :=
  (relOfL l == "alternate") && truthyO (hrefOfL l)

/-- The qualifying alternates of a url-set entry, independent of any
timestamp: links whose relation is `alternate` (the default) and whose
href is truthy, resolved against the base. -/
def altResolved (base : String) : List XNode → List String
  | [] => []
  | l :: rest =>
    (if truthyO (hrefOfAlt l) && (relOfUrlsetAlt l == "alternate") then
      (resolveURL (jsToStringO (hrefOfAlt l)) base).toList
    else []) ++ altResolved base rest

/-- Atom link object with relation `self` (spec section 8 example). -/
def linkSelfA : XNode := .objN [("rel", .strN "self"), ("href", .strN "A")]

/-- Atom link object with relation `alternate` (spec section 8 example). -/
def linkAltB : XNode := .objN [("rel", .strN "alternate"), ("href", .strN "B")]

/-- Cyclic pair: index A lists index B and url-set U1. -/
def docA : XNode := .objN [("sitemapindex", .objN [("sitemap",
  .arrN [.objN [("loc", .strN "http://h/b.xml")], .objN [("loc", .strN "http://h/u1.xml")]])])]

/-- Cyclic pair: index B lists index A and url-set U2. -/
def docB : XNode := .objN [("sitemapindex", .objN [("sitemap",
  .arrN [.objN [("loc", .strN "http://h/a.xml")], .objN [("loc", .strN "http://h/u2.xml")]])])]

/-- Url-set carrying one location. -/
def docU1 : XNode := .objN [("urlset", .objN [("url", .objN [("loc", .strN "http://h/u1")])])]

/-- Url-set carrying one location. -/
def docU2 : XNode := .objN [("urlset", .objN [("url", .objN [("loc", .strN "http://h/u2")])])]

/-- The cyclic sitemap-index graph of spec section 8: A references B and B
references A, with one url-set hanging off each. -/
def gCyc : Graph :=
  [("http://h/a.xml", some ⟨"http://h/a.xml", docA⟩),
   ("http://h/b.xml", some ⟨"http://h/b.xml", docB⟩),
   ("http://h/u1.xml", some ⟨"http://h/u1.xml", docU1⟩),
   ("http://h/u2.xml", some ⟨"http://h/u2.xml", docU2⟩)]

/-- An alternate link child: relation `alternate`, absolute href. -/
def c9Link : XNode := .objN [("rel", .strN "alternate"), ("href", .strN "http://h/alt")]

/-- A url-set entry that carries a qualifying alternate link but no
`loc`. -/
def c9Entry : XNode := .objN [("link", c9Link)]

/-- A url-set document whose single entry is `c9Entry`. -/
def c9Doc : XNode := .objN [("urlset", .objN [("url", c9Entry)])]

/-- One-document graph serving `c9Doc`. -/
def gC9 : Graph := [("http://h/s.xml", some ⟨"http://h/s.xml", c9Doc⟩)]

/-- A url-set entry with both a location and an alternate link. -/
def c9EntryLoc : XNode := .objN [("loc", .strN "http://h/page"), ("link", c9Link)]

/-- A document whose `urlset` container key is present but carries no
`url` child. -/
def c7Doc : XNode := .objN [("urlset", .objN [])]

theorem schemeTail_append (l m : List Char) (h : schemeTail l = true) :
    schemeTail (l ++ m) = true := by
  induction l with
  | nil => simp [schemeTail] at h
  | cons c r ih =>
    by_cases hc : c = ':'
    · simp [schemeTail, hc]
    · by_cases ha : c.isAlpha
      · simp only [schemeTail, hc, ha, if_true, if_false] at h
        simp only [List.cons_append, schemeTail, hc, ha, if_true, if_false]
        exact ih h
      · simp [schemeTail, hc, ha] at h

theorem hasSchemeL_append (l m : List Char) (h : hasSchemeL l = true) :
    hasSchemeL (l ++ m) = true := by
  cases l with
  | nil => simp [hasSchemeL] at h
  | cons c r =>
    simp only [hasSchemeL, Bool.and_eq_true] at h
    simp only [List.cons_append, hasSchemeL, Bool.and_eq_true]
    exact ⟨h.1, schemeTail_append r m h.2⟩

theorem resolveURL_hasScheme (ref base out : String)
    (h : resolveURL ref base = some out) : hasScheme out = true := by
  unfold resolveURL at h
  by_cases h1 : hasScheme (jsTrim ref) = true
  · simp only [h1, if_true, Option.some.injEq] at h
    exact h ▸ h1
  · simp only [Bool.not_eq_true] at h1
    simp only [h1, Bool.false_eq_true, if_false] at h
    by_cases h2 : hasScheme base = true
    · simp only [h2, if_true, Option.some.injEq] at h
      subst h
      unfold hasScheme at h2 ⊢
      rw [String.data_append, String.data_append]
      exact hasSchemeL_append _ _ (hasSchemeL_append _ _ h2)
    · simp only [Bool.not_eq_true] at h2
      simp [h2] at h

theorem mem_dkfA (a : String) (l : List String) : ∀ s : List String,
    a ∈ dkfA s l ↔ a ∈ l ∧ a ∉ s := by
  induction l with
  | nil => intro s; simp [dkfA]
  | cons x xs ih =>
    intro s
    by_cases hx : x ∈ s
    · simp only [dkfA, hx, if_true, ih s, List.mem_cons]
      constructor
      · rintro ⟨h1, h2⟩; exact ⟨Or.inr h1, h2⟩
      · rintro ⟨h1 | h1, h2⟩
        · exact absurd (h1 ▸ hx) h2
        · exact ⟨h1, h2⟩
    · simp only [dkfA, hx, if_false, List.mem_cons, ih (x :: s)]
      constructor
      · rintro (rfl | ⟨h1, h2⟩)
        · exact ⟨Or.inl rfl, hx⟩
        · exact ⟨Or.inr h1, fun hc => h2 (Or.inr hc)⟩
      · rintro ⟨rfl | h1, h2⟩
        · exact Or.inl rfl
        · by_cases hax : a = x
          · exact Or.inl hax
          · refine Or.inr ⟨h1, fun hc => ?_⟩
            rcases hc with h | h
            · exact hax h
            · exact h2 h

theorem dkfA_append (a : String) (l : List String) : ∀ s : List String,
    dkfA s (l ++ [a]) = dkfA s l ++ (if a ∈ s ∨ a ∈ dkfA s l then [] else [a]) := by
  induction l with
  | nil =>
    intro s
    by_cases ha : a ∈ s <;> simp [dkfA, ha]
  | cons x xs ih =>
    intro s
    by_cases hx : x ∈ s
    · rw [List.cons_append]
      simp only [dkfA, hx, if_true]
      exact ih s
    · rw [List.cons_append]
      simp only [dkfA, hx, if_false]
      rw [ih (x :: s)]
      have hcond : (a ∈ x :: s ∨ a ∈ dkfA (x :: s) xs) ↔
          (a ∈ s ∨ a ∈ x :: dkfA (x :: s) xs) := by
        simp only [List.mem_cons]
        tauto
      by_cases hc : a ∈ x :: s ∨ a ∈ dkfA (x :: s) xs
      · rw [if_pos hc, if_pos (hcond.mp hc)]
        simp
      · rw [if_neg hc, if_neg (fun hca => hc (hcond.mpr hca))]
        simp

/-- The invariant tying the mutable result state to the emission trace:
the dedup set mirrors the results, the results are duplicate-free and
scheme-carrying, and they are the first-occurrence dedup of the trace. -/
def InvR (st : St) : Prop :=
  (∀ x, x ∈ st.seen ↔ x ∈ st.results) ∧
  st.results.Nodup ∧
  (∀ u ∈ st.results, hasScheme u = true) ∧
  st.results = dedupKeepFirst st.emitted

theorem emitResult_queue (st : St) (a : String) : (emitResult st a).queue = st.queue := by
  unfold emitResult; split <;> rfl

theorem emitResult_visited (st : St) (a : String) :
    (emitResult st a).visited = st.visited := by
  unfold emitResult; split <;> rfl

theorem emitResult_fetched (st : St) (a : String) :
    (emitResult st a).fetched = st.fetched := by
  unfold emitResult; split <;> rfl

theorem emitResult_invR (st : St) (a : String) (h : InvR st)
    (hs : hasScheme a = true) : InvR (emitResult st a) := by
  obtain ⟨hmr, hnd, hsch, hdk⟩ := h
  by_cases hm : a ∈ st.seen
  · have ha : a ∈ dedupKeepFirst st.emitted := hdk ▸ (hmr a).mp hm
    unfold emitResult
    rw [if_pos hm]
    refine ⟨hmr, hnd, hsch, ?_⟩
    show st.results = dedupKeepFirst (st.emitted ++ [a])
    unfold dedupKeepFirst at *
    rw [dkfA_append]
    simp [ha, hdk]
  · have ha : a ∉ dedupKeepFirst st.emitted := fun c => hm ((hmr a).mpr (hdk ▸ c))
    have har : a ∉ st.results := fun c => hm ((hmr a).mpr c)
    unfold emitResult
    rw [if_neg hm]
    refine ⟨?_, ?_, ?_, ?_⟩
    · intro x
      simp only [List.mem_cons, List.mem_append, List.mem_singleton]
      rw [hmr x]
      tauto
    · simp only [List.nodup_append, List.nodup_cons, List.nodup_nil]
      exact ⟨hnd, by simp, by simp [List.Disjoint]; intro b hb hba; exact har (hba ▸ hb)⟩
    · intro u hu
      rcases List.mem_append.mp hu with h1 | h1
      · exact hsch u h1
      · rw [List.mem_singleton.mp h1]; exact hs
    · show st.results ++ [a] = dedupKeepFirst (st.emitted ++ [a])
      unfold dedupKeepFirst at *
      rw [dkfA_append]
      simp [ha, hdk]

theorem emitAll_queue (cs : List String) : ∀ st : St, (emitAll st cs).queue = st.queue := by
  induction cs with
  | nil => intro st; rfl
  | cons c cs ih => intro st; rw [emitAll, ih, emitResult_queue]

theorem emitAll_visited (cs : List String) : ∀ st : St,
    (emitAll st cs).visited = st.visited := by
  induction cs with
  | nil => intro st; rfl
  | cons c cs ih => intro st; rw [emitAll, ih, emitResult_visited]

theorem emitAll_fetched (cs : List String) : ∀ st : St,
    (emitAll st cs).fetched = st.fetched := by
  induction cs with
  | nil => intro st; rfl
  | cons c cs ih => intro st; rw [emitAll, ih, emitResult_fetched]

theorem emitAll_invR (cs : List String) : ∀ st : St, InvR st →
    (∀ c ∈ cs, hasScheme c = true) → InvR (emitAll st cs) := by
  induction cs with
  | nil => intro st h _; exact h
  | cons c cs ih =>
    intro st h hall
    rw [emitAll]
    exact ih _ (emitResult_invR st c h (hall c (List.mem_cons_self c cs)))
      (fun x hx => hall x (List.mem_cons_of_mem c hx))

theorem mem_optToList {o : Option String} {u : String} (h : u ∈ o.toList) : o = some u := by
  cases o with
  | none => simp [Option.toList] at h
  | some v => simp [Option.toList] at h; simp [h]

theorem concatMap_mem {f : α → List β} {l : List α} {u : β} :
    u ∈ concatMap f l ↔ ∃ a ∈ l, u ∈ f a := by
  induction l with
  | nil => simp [concatMap]
  | cons x xs ih => simp [concatMap, List.mem_append, ih]

theorem urlsetAltEmits_scheme (fromTs urlTs : Option Int) (base : String) :
    ∀ ls u, u ∈ urlsetAltEmits fromTs urlTs base ls → hasScheme u = true := by
  intro ls
  induction ls with
  | nil => intro u hu; simp [urlsetAltEmits] at hu
  | cons l rest ih =>
    intro u hu
    by_cases hc : (truthyO (hrefOfAlt l) && (relOfUrlsetAlt l == "alternate")) = true
    · simp only [urlsetAltEmits, hc, if_true] at hu
      cases hres : resolveURL (jsToStringO (hrefOfAlt l)) base with
      | none => simp only [hres] at hu; exact ih u hu
      | some absAlt =>
        simp only [hres] at hu
        rcases List.mem_append.mp hu with h1 | h1
        · by_cases hinc : includeByFrom urlTs fromTs = true
          · rw [if_pos hinc] at h1
            obtain rfl := List.mem_singleton.mp h1
            exact resolveURL_hasScheme _ _ _ hres
          · simp only [Bool.not_eq_true] at hinc
            simp [hinc] at h1
        · exact ih u h1
    · simp only [Bool.not_eq_true] at hc
      simp only [urlsetAltEmits, hc, Bool.false_eq_true, if_false] at hu
      exact ih u hu

theorem urlsetEntryEmits_scheme (fromTs : Option Int) (base : String) (it : XNode)
    (u : String) (hu : u ∈ urlsetEntryEmits fromTs base it) : hasScheme u = true := by
  have main : ∀ (ft : Option Int),
      u ∈ (if ((match ft with
          | none => truthyO (jsGet it "loc")
          | some _ => truthyO (jsGet it "loc") && includeByFrom (urlsetTs it) ft) = true) then
        (match resolveURL (jsToStringO (jsGet it "loc")) base with
          | some abs => [abs]
          | none => []) ++ urlsetAltEmits ft (urlsetTs it) base (urlsetLinks it)
      else []) → hasScheme u = true := by
    intro ft hu'
    split at hu'
    · rcases List.mem_append.mp hu' with h1 | h1
      · cases hres : resolveURL (jsToStringO (jsGet it "loc")) base with
        | none => simp only [hres] at h1; simp at h1
        | some abs =>
          simp only [hres] at h1
          obtain rfl := List.mem_singleton.mp h1
          exact resolveURL_hasScheme _ _ _ hres
      · exact urlsetAltEmits_scheme _ _ _ _ u h1
    · simp at hu'
  exact main fromTs (by simpa only [urlsetEntryEmits] using hu)

theorem rssItemEmit_scheme (fromTs : Option Int) (base : String) (it : XNode)
    (u : String) (hu : u ∈ rssItemEmit fromTs base it) : hasScheme u = true := by
  simp only [rssItemEmit] at hu
  split at hu
  · simp at hu
  · split at hu
    · simp at hu
    · exact resolveURL_hasScheme _ _ _ (mem_optToList hu)

theorem atomEntryEmit_scheme (fromTs : Option Int) (base : String) (it : XNode)
    (u : String) (hu : u ∈ atomEntryEmit fromTs base it) : hasScheme u = true := by
  simp only [atomEntryEmit] at hu
  split at hu
  · simp at hu
  · split at hu
    · simp at hu
    · exact resolveURL_hasScheme _ _ _ (mem_optToList hu)

theorem rdfItemEmit_scheme (fromTs : Option Int) (base : String) (it : XNode)
    (u : String) (hu : u ∈ rdfItemEmit fromTs base it) : hasScheme u = true := by
  simp only [rdfItemEmit] at hu
  split at hu
  · simp at hu
  · split at hu
    · simp at hu
    · exact resolveURL_hasScheme _ _ _ (mem_optToList hu)

theorem genEmits_scheme (fromTs : Option Int) (base : String) :
    ∀ (n : Nat) (stack : List XNode), sizeXL stack ≤ n →
      ∀ u ∈ genEmits fromTs base stack, hasScheme u = true := by
  intro n
  induction n with
  | zero =>
    intro stack hs u hu
    cases stack with
    | nil => simp [genEmits] at hu
    | cons x r =>
      have := sizeX_pos x
      simp only [sizeXL] at hs
      omega
  | succ n ih =>
    intro stack hs u hu
    cases stack with
    | nil => simp [genEmits] at hu
    | cons node rest =>
      cases node with
      | arrN xs =>
        simp only [genEmits] at hu
        refine ih (xs.reverse ++ rest) ?_ u hu
        rw [sizeXL_append, sizeXL_reverse]
        simp only [sizeXL, sizeX] at hs
        omega
      | objN fs =>
        rw [genEmits.eq_def] at hu
        simp only [] at hu
        rcases List.mem_append.mp hu with h1 | h1
        · -- the node's own emission comes from a resolution
          split at h1
          · simp at h1
          · split at h1
            · exact resolveURL_hasScheme _ _ _ (mem_optToList h1)
            · split at h1
              · exact resolveURL_hasScheme _ _ _ (mem_optToList h1)
              · simp at h1
        · refine ih _ ?_ u h1
          rw [sizeXL_append, sizeXL_reverse]
          have hb := sizeXL_filterSnd (fun kv => isObjLike kv.2) fs
          simp only [sizeXL, sizeX] at hs
          omega
      | nullN =>
        simp only [genEmits] at hu
        refine ih rest ?_ u hu
        simp only [sizeXL, sizeX] at hs
        omega
      | strN s =>
        simp only [genEmits] at hu
        refine ih rest ?_ u hu
        simp only [sizeXL, sizeX] at hs
        omega
      | numN m =>
        simp only [genEmits] at hu
        refine ih rest ?_ u hu
        simp only [sizeXL, sizeX] at hs
        omega

theorem docEmissions_scheme (fromTs : Option Int) (base : String) (d : XNode)
    (u : String) (hu : u ∈ docEmissions fromTs base d) : hasScheme u = true := by
  unfold docEmissions at hu
  split at hu
  · obtain ⟨a, _, ha⟩ := concatMap_mem.mp hu
    exact urlsetEntryEmits_scheme _ _ _ _ ha
  · split at hu
    · obtain ⟨a, _, ha⟩ := concatMap_mem.mp hu
      exact rssItemEmit_scheme _ _ _ _ ha
    · split at hu
      · obtain ⟨a, _, ha⟩ := concatMap_mem.mp hu
        exact atomEntryEmit_scheme _ _ _ _ ha
      · split at hu
        · obtain ⟨a, _, ha⟩ := concatMap_mem.mp hu
          exact rdfItemEmit_scheme _ _ _ _ ha
        · exact genEmits_scheme fromTs base (sizeXL [d]) [d] (le_refl _) u hu

theorem smiPushList_len (visited : List String) (base : String) :
    ∀ l : List XNode, (smiPushList visited base l).length ≤ l.length := by
  intro l
  induction l with
  | nil => simp [smiPushList]
  | cons it rest ih =>
    simp only [smiPushList]
    split
    · split
      · rename_i abs _
        by_cases hm : abs ∈ visited
        · simp only [hm, if_pos]
          simpa using Nat.le_succ_of_le ih
        · simp only [hm, if_neg, not_false_iff]
          simpa using Nat.succ_le_succ ih
      · simpa using Nat.le_succ_of_le ih
    · simpa using Nat.le_succ_of_le ih

theorem processDoc_queue (fromTs : Option Int) (base : String) (d : XNode) (st : St) :
    ∃ ps : List String, (processDoc fromTs base d st).queue = ps ++ st.queue ∧
      ps.length ≤ (smiEntriesOf d).length := by
  unfold processDoc
  by_cases h : truthyO (gG (jsGet d "sitemapindex") "sitemap") = true
  · rw [if_pos h]
    refine ⟨_, rfl, ?_⟩
    rw [List.length_reverse]
    exact smiPushList_len _ _ _
  · simp only [Bool.not_eq_true] at h
    simp only [h, Bool.false_eq_true, if_false]
    exact ⟨[], by rw [emitAll_queue]; rfl, by simp⟩

theorem processDoc_visited (fromTs : Option Int) (base : String) (d : XNode) (st : St) :
    (processDoc fromTs base d st).visited = st.visited := by
  unfold processDoc
  split
  · rfl
  · rw [emitAll_visited]

theorem processDoc_fetched (fromTs : Option Int) (base : String) (d : XNode) (st : St) :
    (processDoc fromTs base d st).fetched = st.fetched := by
  unfold processDoc
  split
  · rfl
  · rw [emitAll_fetched]

theorem processDoc_invR (fromTs : Option Int) (base : String) (d : XNode) (st : St)
    (h : InvR st) : InvR (processDoc fromTs base d st) := by
  unfold processDoc
  split
  · exact h
  · exact emitAll_invR _ st h (fun c hc => docEmissions_scheme fromTs base d c hc)

/-- The fetch-trace invariant: fetch attempts are pairwise distinct and
each was visited. -/
def FInv (st : St) : Prop :=
  st.fetched.Nodup ∧ ∀ u ∈ st.fetched, u ∈ st.visited

theorem stepSt_invR (g : Graph) (fromTs : Option Int) (st : St) (h : InvR st) :
    InvR (stepSt g fromTs st) := by
  unfold stepSt
  cases hq : st.queue with
  | nil => exact h
  | cons current q =>
    simp only []
    by_cases hc : current = "" ∨ current ∈ st.visited
    · rw [if_pos hc]
      exact h
    · rw [if_neg hc]
      cases hfind : findG g current with
      | none => simp only [hfind]; exact h
      | some fr => simp only [hfind]; exact processDoc_invR _ _ _ _ h

theorem stepSt_finv (g : Graph) (fromTs : Option Int) (st : St) (h : FInv st) :
    FInv (stepSt g fromTs st) := by
  obtain ⟨hnd, hsub⟩ := h
  unfold stepSt
  cases hq : st.queue with
  | nil => exact ⟨hnd, hsub⟩
  | cons current q =>
    simp only []
    by_cases hns : current = "" ∨ current ∈ st.visited
    · rw [if_pos hns]
      exact ⟨hnd, hsub⟩
    · rw [if_neg hns]
      have hcv : current ∉ st.visited := fun hc => hns (Or.inr hc)
      have hcf : current ∉ st.fetched := fun hc => hcv (hsub current hc)
      have hnd' : (st.fetched ++ [current]).Nodup := by
        simp only [List.nodup_append, List.nodup_cons, List.nodup_nil]
        refine ⟨hnd, by simp, ?_⟩
        intro b hb
        simp only [List.mem_singleton]
        intro hbc
        exact hcf (hbc ▸ hb)
      have hsub' : ∀ u ∈ st.fetched ++ [current], u ∈ current :: st.visited := by
        intro u hu
        rcases List.mem_append.mp hu with h1 | h1
        · exact List.mem_cons_of_mem _ (hsub u h1)
        · rw [List.mem_singleton.mp h1]
          exact List.mem_cons_self _ _
      cases hfind : findG g current with
      | none => exact ⟨hnd', hsub'⟩
      | some fr =>
        constructor
        · rw [processDoc_fetched]
          exact hnd'
        · rw [processDoc_fetched, processDoc_visited]
          exact hsub'

theorem filter_len_le {α : Type} (l : List α) (p q : α → Bool)
    (h : ∀ a, p a = true → q a = true) :
    (l.filter p).length ≤ (l.filter q).length := by
  induction l with
  | nil => simp
  | cons x xs ih =>
    by_cases hp : p x = true
    · rw [List.filter_cons_of_pos hp, List.filter_cons_of_pos (h x hp)]
      simpa using ih
    · rw [List.filter_cons_of_neg (by simpa using hp)]
      by_cases hq : q x = true
      · rw [List.filter_cons_of_pos hq]
        simp only [List.length_cons]
        exact Nat.le_succ_of_le ih
      · rw [List.filter_cons_of_neg (by simpa using hq)]
        exact ih

theorem filter_len_lt {α : Type} (l : List α) (p q : α → Bool)
    (h : ∀ a, p a = true → q a = true) (c : α) (hc : c ∈ l)
    (hq : q c = true) (hp : p c = false) :
    (l.filter p).length < (l.filter q).length := by
  induction l with
  | nil => simp at hc
  | cons x xs ih =>
    rcases List.mem_cons.mp hc with rfl | hcx
    · rw [List.filter_cons_of_neg (by simp [hp]), List.filter_cons_of_pos hq]
      simp only [List.length_cons]
      exact Nat.lt_succ_of_le (filter_len_le xs p q h)
    · by_cases hpx : p x = true
      · rw [List.filter_cons_of_pos hpx, List.filter_cons_of_pos (h x hpx)]
        simpa using ih hcx
      · rw [List.filter_cons_of_neg (by simpa using hpx)]
        by_cases hqx : q x = true
        · rw [List.filter_cons_of_pos hqx]
          exact Nat.lt_succ_of_lt (ih hcx)
        · rw [List.filter_cons_of_neg (by simpa using hqx)]
          exact ih hcx

theorem unvisited_cons_le (g : Graph) (c : String) (v : List String) :
    unvisited g (c :: v) ≤ unvisited g v := by
  apply filter_len_le
  intro a ha
  simp only [decide_eq_true_eq] at ha ⊢
  intro hv
  exact ha (List.mem_cons_of_mem _ hv)

theorem unvisited_cons_lt (g : Graph) (c : String) (v : List String)
    (hc : c ∈ g.map Prod.fst) (hv : c ∉ v) :
    unvisited g (c :: v) < unvisited g v := by
  apply filter_len_lt
  · intro a ha
    simp only [decide_eq_true_eq] at ha ⊢
    intro hmem
    exact ha (List.mem_cons_of_mem _ hmem)
  · exact hc
  · simpa using hv
  · simp

theorem findG_mem (g : Graph) (c : String) (fr : FetchOk) (h : findG g c = some fr) :
    c ∈ g.map Prod.fst := by
  induction g with
  | nil => simp [findG] at h
  | cons e rest ih =>
    obtain ⟨u, r⟩ := e
    simp only [findG] at h
    by_cases hu : u = c
    · simp [hu]
    · rw [if_neg hu] at h
      exact List.mem_cons_of_mem _ (ih h)

theorem findG_K (g : Graph) (c : String) (fr : FetchOk) (h : findG g c = some fr) :
    (smiEntriesOf fr.doc).length ≤ Kg g := by
  induction g with
  | nil => simp [findG] at h
  | cons e rest ih =>
    obtain ⟨u, r⟩ := e
    simp only [findG] at h
    by_cases hu : u = c
    · rw [if_pos hu] at h
      subst h
      simp [Kg, entKey]
    · rw [if_neg hu] at h
      have := ih h
      simp only [Kg, List.map_cons, List.sum_cons] at *
      omega

theorem meas_step (g : Graph) (fromTs : Option Int) (st : St) (hne : st.queue ≠ []) :
    meas g (stepSt g fromTs st) < meas g st := by
  unfold stepSt
  cases hq : st.queue with
  | nil => exact absurd hq hne
  | cons current q =>
    simp only []
    by_cases hc : current = "" ∨ current ∈ st.visited
    · rw [if_pos hc]
      simp only [meas, unvisited, hq, List.length_cons]
      omega
    · rw [if_neg hc]
      have hcv : current ∉ st.visited := fun h => hc (Or.inr h)
      cases hfind : findG g current with
      | none =>
        simp only [hfind]
        have hm := unvisited_cons_le g current st.visited
        have hmul := Nat.mul_le_mul (Nat.le_refl (Kg g + 2)) hm
        simp only [meas, hq, List.length_cons]
        omega
      | some fr =>
        simp only [hfind]
        have hKle : (smiEntriesOf fr.doc).length ≤ Kg g := findG_K g current fr hfind
        have hcmem : current ∈ g.map Prod.fst := findG_mem g current fr hfind
        have hstrict := unvisited_cons_lt g current st.visited hcmem hcv
        obtain ⟨ps, hps, hlen⟩ := processDoc_queue fromTs
          (if fr.finalUrl = "" then current else fr.finalUrl) fr.doc
          ⟨q, current :: st.visited, st.seen, st.results, st.fetched ++ [current], st.emitted⟩
        have hvis := processDoc_visited fromTs
          (if fr.finalUrl = "" then current else fr.finalUrl) fr.doc
          ⟨q, current :: st.visited, st.seen, st.results, st.fetched ++ [current], st.emitted⟩
        simp only [meas, hq, List.length_cons, hps, hvis, List.length_append]
        have hmul := Nat.mul_le_mul (Nat.le_refl (Kg g + 2))
          (show unvisited g (current :: st.visited) + 1 ≤ unvisited g st.visited from hstrict)
        rw [Nat.mul_add, Nat.mul_one] at hmul
        have hps_le : ps.length ≤ Kg g := le_trans hlen hKle
        omega

theorem run_term (g : Graph) (fromTs : Option Int) :
    ∀ (n : Nat) (st : St), meas g st ≤ n → (run g fromTs n st).queue = [] := by
  intro n
  induction n with
  | zero =>
    intro st h
    simp only [meas] at h
    have hz : st.queue.length = 0 := by omega
    simp only [run]
    exact List.length_eq_zero.mp hz
  | succ n ih =>
    intro st h
    cases hq : st.queue with
    | nil =>
      simp only [run, hq]
    | cons c q =>
      have hne : st.queue ≠ [] := by simp [hq]
      have hlt := meas_step g fromTs st hne
      simp only [run, hq]
      exact ih (stepSt g fromTs st) (by omega)

theorem run_invR (g : Graph) (fromTs : Option Int) :
    ∀ (n : Nat) (st : St), InvR st → InvR (run g fromTs n st) := by
  intro n
  induction n with
  | zero => intro st h; simpa only [run] using h
  | succ n ih =>
    intro st h
    cases hq : st.queue with
    | nil => simpa only [run, hq] using h
    | cons c q =>
      simp only [run, hq]
      exact ih _ (stepSt_invR g fromTs st h)

theorem run_finv (g : Graph) (fromTs : Option Int) :
    ∀ (n : Nat) (st : St), FInv st → FInv (run g fromTs n st) := by
  intro n
  induction n with
  | zero => intro st h; simpa only [run] using h
  | succ n ih =>
    intro st h
    cases hq : st.queue with
    | nil => simpa only [run, hq] using h
    | cons c q =>
      simp only [run, hq]
      exact ih _ (stepSt_finv g fromTs st h)

theorem initSt_invR (url : String) : InvR (initSt url) := by
  refine ⟨?_, ?_, ?_, rfl⟩ <;> simp [initSt]

theorem initSt_finv (url : String) : FInv (initSt url) := by
  exact ⟨List.nodup_nil, by simp [initSt]⟩

theorem crawlG_queue_empty (g : Graph) (fromTs : Option Int) (url : String) :
    (crawlG g fromTs url).queue = [] :=
  run_term g fromTs _ _ (Nat.le_refl _)

theorem crawlG_invR (g : Graph) (fromTs : Option Int) (url : String) :
    InvR (crawlG g fromTs url) :=
  run_invR g fromTs _ _ (initSt_invR url)

theorem crawlG_finv (g : Graph) (fromTs : Option Int) (url : String) :
    FInv (crawlG g fromTs url) :=
  run_finv g fromTs _ _ (initSt_finv url)

theorem firstTs_all_none : ∀ vs : List JsVal,
    (∀ v ∈ vs, toTs v = none) → firstTs vs = none := by
  intro vs
  induction vs with
  | nil => intro _; rfl
  | cons v r ih =>
    intro h
    have hv := h v (List.mem_cons_self _ _)
    simp only [firstTs, hv]
    exact ih (fun x hx => h x (List.mem_cons_of_mem _ hx))

/-- C1: for every traversal that returns, the result sequence is
duplicate-free, every element carries a scheme (it was produced by
resolution against the document's post-redirect base), and the sequence is
exactly the first-occurrence deduplication of the emission trace, so
first-seen order of emission is preserved. -/
theorem c1_results_nodup_absolute_order :
    ∀ (g : Graph) (url : String) (fd : Option JsVal) (st' : St),
      getSitemapUrlsT g url fd = Except.ok st' →
      st'.results.Nodup ∧ (∀ u ∈ st'.results, hasScheme u = true) ∧
      st'.results = dedupKeepFirst st'.emitted := by
  intro g url fd st' h
  have hcr : ∃ ft, st' = crawlG g ft url := by
    unfold getSitemapUrlsT at h
    split at h
    · exact ⟨none, by injection h with h'; exact h'.symm⟩
    · split at h
      · split at h
        · exact Except.noConfusion h
        · exact ⟨_, by injection h with h'; exact h'.symm⟩
      · exact ⟨none, by injection h with h'; exact h'.symm⟩
  obtain ⟨ft, rfl⟩ := hcr
  obtain ⟨_, hnd, hsch, hdk⟩ := crawlG_invR g ft url
  exact ⟨hnd, hsch, hdk⟩

/-- C1 witness: the invariants hold for a concrete traversal of the empty
graph. -/
theorem c1_results_nodup_absolute_order_witness :
    (crawlG [] none "http://x").results.Nodup ∧
    (∀ u ∈ (crawlG [] none "http://x").results, hasScheme u = true) ∧
    (crawlG [] none "http://x").results = dedupKeepFirst (crawlG [] none "http://x").emitted :=
  c1_results_nodup_absolute_order [] "http://x" none _ rfl

/-- C2: the inclusion predicate accepts everything when the lower bound is
absent; with a bound it accepts exactly the finite timestamps at or above
the bound; consequently an entry whose candidate date fields all normalize
to not-a-time is excluded whenever a bound is active. -/
theorem c2_includeByFrom_spec :
    (∀ ts : Option Int, includeByFrom ts none = true) ∧
    (∀ (ts : Option Int) (f : Int),
       includeByFrom ts (some f) = true ↔ ∃ t, ts = some t ∧ f ≤ t) ∧
    (∀ (vs : List JsVal) (f : Int), (∀ v ∈ vs, toTs v = none) →
       includeByFrom (firstTs vs) (some f) = false) := by
  refine ⟨fun ts => rfl, ?_, ?_⟩
  · intro ts f
    cases ts with
    | none => simp [includeByFrom]
    | some t => simp [includeByFrom]
  · intro vs f h
    rw [firstTs_all_none vs h]
    rfl

/-- C2 witness: a finite timestamp above the bound is included, and an
entry whose fields are all unparseable is excluded under an active
bound. -/
theorem c2_includeByFrom_spec_witness :
    includeByFrom (some 5) (some 3) = true ∧
    includeByFrom (firstTs [JsVal.nullV, JsVal.nanV]) (some 0) = false :=
  ⟨(c2_includeByFrom_spec.2.1 (some 5) 3).mpr ⟨5, rfl, by norm_num⟩,
   c2_includeByFrom_spec.2.2 [JsVal.nullV, JsVal.nanV] 0 (by decide)⟩

/-- C3: a provided, non-empty, unparseable `fromDate` makes the call fail
with the invalid-lower-bound error and no fetch occurs; an omitted, null or
empty `fromDate` runs the traversal with no bound, under which every entry
qualifies for the inclusion predicate. -/
theorem c3_invalid_fromDate_rejects_before_fetch :
    (∀ (g : Graph) (url : String) (v : JsVal),
       isNullOrEmptyFD (some v) = false → toTs v = none →
       getSitemapUrlsT g url (some v) = Except.error "Invalid \"fromDate\"" ∧
       fetchesOf (getSitemapUrlsT g url (some v)) = []) ∧
    (∀ (g : Graph) (url : String),
       getSitemapUrlsT g url none = Except.ok (crawlG g none url) ∧
       getSitemapUrlsT g url (some JsVal.nullV) = Except.ok (crawlG g none url) ∧
       getSitemapUrlsT g url (some (JsVal.strV "")) = Except.ok (crawlG g none url)) ∧
    (∀ ts : Option Int, includeByFrom ts none = true) := by
  refine ⟨?_, ?_, fun ts => rfl⟩
  · intro g url v h1 h2
    have he : getSitemapUrlsT g url (some v) = Except.error "Invalid \"fromDate\"" := by
      unfold getSitemapUrlsT
      rw [if_neg (by simp [h1])]
      simp only [h2]
    exact ⟨he, by rw [he]; rfl⟩
  · intro g url
    exact ⟨rfl, rfl, rfl⟩

/-- C3 witness: the string "not-a-date" rejects the call on the empty
graph with zero fetch attempts. -/
theorem c3_invalid_fromDate_rejects_before_fetch_witness :
    getSitemapUrlsT [] "http://x/s" (some (JsVal.strV "not-a-date")) =
      Except.error "Invalid \"fromDate\"" ∧
    fetchesOf (getSitemapUrlsT [] "http://x/s" (some (JsVal.strV "not-a-date"))) = [] :=
  c3_invalid_fromDate_rejects_before_fetch.1 [] "http://x/s" (JsVal.strV "not-a-date")
    (by decide) (by decide)

/-- C4 counterexample: the valid 9-digit epoch-seconds string
"999999999" (2001-09-09T01:46:39Z) normalizes to 999999999000
milliseconds, but feeding that value back as a bare number re-applies the
seconds heuristic and yields 999999999000000, so normalization is not
idempotent for this recognized shape. -/
theorem c4_idempotence_counterexample :
    toTs (JsVal.strV "999999999") = some 999999999000 ∧
    toTs (JsVal.numV 999999999000) = some 999999999000000 ∧
    ¬ (999999999000000 : Int) = 999999999000 := by
  exact ⟨by decide, by decide, by decide⟩

/-- C4 amended: normalization is idempotent exactly for millisecond
outputs that are 0 or at least 10^12 (instants on or after
2001-09-09T01:46:40Z); any other output, re-fed as a bare number, is
scaled by 1000 again and changes. -/
theorem c4_idempotence_amended :
    (∀ (v : JsVal) (t : Int), toTs v = some t → (t = 0 ∨ 1000000000000 ≤ t) →
       toTs (JsVal.numV t) = some t) ∧
    (∀ t : Int, ¬ t = 0 → t < 1000000000000 →
       toTs (JsVal.numV t) = some (t * 1000) ∧ ¬ (t * 1000 = t)) := by
  constructor
  · intro v t _ h2
    simp only [toTs, scaleEpoch]
    rcases h2 with rfl | hle
    · norm_num
    · rw [if_neg (by omega)]
  · intro t h0 hlt
    constructor
    · simp only [toTs, scaleEpoch]
      rw [if_pos hlt]
    · intro hc
      omega

/-- C4 witness: a 13-digit epoch-milliseconds string is normalized
idempotently. -/
theorem c4_idempotence_amended_witness :
    toTs (JsVal.numV 1234567890123) = some 1234567890123 :=
  c4_idempotence_amended.1 (JsVal.strV "1234567890123") 1234567890123 (by decide)
    (Or.inr (by norm_num))

/-- C5: every traversal empties its work queue with the computed fuel (the
loop terminates on every graph, cyclic ones included), no URL is ever
fetched twice (the fetch trace is duplicate-free), and the concrete cyclic
pair A-B still yields the results harvested from both underlying
url-sets. -/
theorem c5_crawl_terminates_fetch_once :
    (∀ (g : Graph) (fromTs : Option Int) (url : String),
       (crawlG g fromTs url).queue = [] ∧ (crawlG g fromTs url).fetched.Nodup) ∧
    "http://h/u1" ∈ (crawlG gCyc none "http://h/a.xml").results ∧
    "http://h/u2" ∈ (crawlG gCyc none "http://h/a.xml").results := by
  refine ⟨fun g fromTs url => ⟨crawlG_queue_empty g fromTs url, (crawlG_finv g fromTs url).1⟩,
    by decide, by decide⟩

/-- C5 witness: the cyclic graph's traversal reaches the empty queue and
its fetch trace is duplicate-free. -/
theorem c5_crawl_terminates_fetch_once_witness :
    (crawlG gCyc none "http://h/a.xml").queue = [] ∧
    (crawlG gCyc none "http://h/a.xml").fetched.Nodup :=
  c5_crawl_terminates_fetch_once.1 gCyc none "http://h/a.xml"

/-- C6 counterexample: the numeric input -2*10^12 has magnitude at least
10^12, so the claim says it is passed through as milliseconds, but the
source's signed comparison scales it by 1000. -/
theorem c6_numeric_heuristic_counterexample :
    toTs (JsVal.numV (-2000000000000)) = some (-2000000000000000) ∧
    1000000000000 ≤ ((-2000000000000 : Int).natAbs : Int) ∧
    ¬ (-2000000000000000 : Int) = -2000000000000 := by
  exact ⟨by decide, by decide, by decide⟩

/-- C6 amended: the heuristic compares the signed value against 10^12 —
values below it (including every negative value, whatever its magnitude)
are scaled by 1000, the rest pass through; for nonnegative inputs this
coincides with the magnitude rule, and matched epoch strings go through
the same scaling of their numeric value. -/
theorem c6_numeric_heuristic_amended :
    (∀ n : Int, toTs (JsVal.numV n) = some (if n < 1000000000000 then n * 1000 else n)) ∧
    (∀ n : Int, 0 ≤ n →
       toTs (JsVal.numV n) = some (if (n.natAbs : Int) < 1000000000000 then n * 1000 else n)) ∧
    (∀ s : String, trimL s.data = s.data → epochShape s.data = true →
       toTs (JsVal.strV s) = some (scaleEpoch (strToInt s.data))) := by
  refine ⟨fun n => rfl, ?_, ?_⟩
  · intro n hn
    simp only [toTs, scaleEpoch, Int.natAbs_of_nonneg hn]
  · intro s htrim hshape
    have hne : ¬ s = "" := by
      intro h
      subst h
      exact absurd hshape (by decide)
    simp only [toTs, if_neg hne, toTsStr, htrim, hshape, if_true]

/-- C6 witness: a 9-digit epoch string and a small bare number follow the
scaling rule. -/
theorem c6_numeric_heuristic_amended_witness :
    toTs (JsVal.strV "123456789") = some (scaleEpoch (strToInt ("123456789").data)) ∧
    toTs (JsVal.numV 5) = some (if (5 : Int) < 1000000000000 then 5 * 1000 else 5) :=
  ⟨c6_numeric_heuristic_amended.2.2 "123456789" (by decide) (by decide),
   c6_numeric_heuristic_amended.1 5⟩

/-- C10: a minus sign followed by nine digits matches the epoch-string
rule, normalizes to a finite negative millisecond value (not not-a-time),
survives `firstTs`, and participates in lower-bound comparisons in both
directions. -/
theorem c10_negative_epoch_strings :
    toTs (JsVal.strV "-123456789") = some (-123456789000) ∧
    (-123456789000 : Int) < 0 ∧
    firstTs [JsVal.strV "-123456789"] = some (-123456789000) ∧
    includeByFrom (some (-123456789000)) (some (-200000000000000)) = true ∧
    includeByFrom (some (-123456789000)) (some 0) = false := by
  exact ⟨by decide, by decide, by decide, by decide, by decide⟩

/-- C7 counterexample: the document `{urlset: {}}` carries the `urlset`
container key with a truthy (object) value, yet the classifier routes it
to the generic fallback, not to the url-set dialect — matching is not on
the container key alone. -/
theorem c7_container_key_counterexample :
    (jsGet c7Doc "urlset").isSome = true ∧
    truthyO (jsGet c7Doc "urlset") = true ∧
    classify c7Doc = Dialect.generic ∧
    Dialect.generic ≠ Dialect.urlset := by
  exact ⟨rfl, rfl, by decide, by decide⟩

/-- C7 amended: exactly one extraction strategy runs per document, chosen
by first match in the fixed priority order; the sitemap-index, url-set and
RSS guards are structural on the container key *plus* its primary child
(`sitemapindex.sitemap`, `urlset.url`, `rss.channel` truthy), while Atom
matches on a truthy `feed` root key alone and RDF on any of the
`RDF`/`rdf`/`rdf:RDF` root keys; no schema validation happens beyond these
key probes. -/
theorem c7_dialect_dispatch_amended :
    (∀ (fromTs : Option Int) (base : String) (d : XNode) (st : St),
       processDoc fromTs base d st = applyDialect (classify d) fromTs base d st) ∧
    (∀ d : XNode, classify d = Dialect.sitemapIndex ↔
       truthyO (gG (jsGet d "sitemapindex") "sitemap") = true) ∧
    (∀ d : XNode, classify d = Dialect.urlset ↔
       (truthyO (gG (jsGet d "sitemapindex") "sitemap") = false ∧
        truthyO (gG (jsGet d "urlset") "url") = true)) ∧
    (∀ d : XNode, classify d = Dialect.rss ↔
       (truthyO (gG (jsGet d "sitemapindex") "sitemap") = false ∧
        truthyO (gG (jsGet d "urlset") "url") = false ∧
        truthyO (gG (jsGet d "rss") "channel") = true)) ∧
    (∀ d : XNode, classify d = Dialect.atom ↔
       (truthyO (gG (jsGet d "sitemapindex") "sitemap") = false ∧
        truthyO (gG (jsGet d "urlset") "url") = false ∧
        truthyO (gG (jsGet d "rss") "channel") = false ∧
        truthyO (jsGet d "feed") = true)) ∧
    (∀ d : XNode, classify d = Dialect.rdf ↔
       (truthyO (gG (jsGet d "sitemapindex") "sitemap") = false ∧
        truthyO (gG (jsGet d "urlset") "url") = false ∧
        truthyO (gG (jsGet d "rss") "channel") = false ∧
        truthyO (jsGet d "feed") = false ∧
        (truthyO (jsGet d "RDF") || truthyO (jsGet d "rdf") ||
          truthyO (jsGet d "rdf:RDF")) = true)) ∧
    (∀ d : XNode, classify d = Dialect.generic ↔
       (truthyO (gG (jsGet d "sitemapindex") "sitemap") = false ∧
        truthyO (gG (jsGet d "urlset") "url") = false ∧
        truthyO (gG (jsGet d "rss") "channel") = false ∧
        truthyO (jsGet d "feed") = false ∧
        (truthyO (jsGet d "RDF") || truthyO (jsGet d "rdf") ||
          truthyO (jsGet d "rdf:RDF")) = false)) := by
  refine ⟨?_, ?_, ?_, ?_, ?_, ?_, ?_⟩
  · intro fromTs base d st
    unfold processDoc applyDialect classify docEmissions
    by_cases h1 : truthyO (gG (jsGet d "sitemapindex") "sitemap") = true
    · simp [h1]
    · by_cases h2 : truthyO (gG (jsGet d "urlset") "url") = true
      · simp [h1, h2]
      · by_cases h3 : truthyO (gG (jsGet d "rss") "channel") = true
        · simp [h1, h2, h3]
        · by_cases h4 : truthyO (jsGet d "feed") = true
          · simp [h1, h2, h3, h4]
          · by_cases h5 : (truthyO (jsGet d "RDF") || truthyO (jsGet d "rdf") ||
                truthyO (jsGet d "rdf:RDF")) = true
            · simp [h1, h2, h3, h4, h5]
            · simp [h1, h2, h3, h4, h5]
  all_goals
    intro d
    unfold classify
    by_cases h1 : truthyO (gG (jsGet d "sitemapindex") "sitemap") = true <;>
      by_cases h2 : truthyO (gG (jsGet d "urlset") "url") = true <;>
      by_cases h3 : truthyO (gG (jsGet d "rss") "channel") = true <;>
      by_cases h4 : truthyO (jsGet d "feed") = true <;>
      by_cases h5 : (truthyO (jsGet d "RDF") || truthyO (jsGet d "rdf") ||
        truthyO (jsGet d "rdf:RDF")) = true <;>
      simp [h1, h2, h3, h4, h5]

/-- C7 witness: the dispatch factoring at a concrete document and state,
and a url-set document classifying to the url-set dialect. -/
theorem c7_dialect_dispatch_amended_witness :
    processDoc none "http://b" c7Doc (initSt "u") =
      applyDialect (classify c7Doc) none "http://b" c7Doc (initSt "u") ∧
    classify docU1 = Dialect.urlset :=
  ⟨c7_dialect_dispatch_amended.1 none "http://b" c7Doc (initSt "u"),
   (c7_dialect_dispatch_amended.2.2.1 docU1).mpr ⟨by decide, by decide⟩⟩

theorem chooseLink_keep : ∀ (L : List XNode) (c : Option XNode), truthyO c = true →
    (∀ l ∈ L, isAltHref l = false) → chooseLink L c = c := by
  intro L
  induction L with
  | nil => intro c _ _; rfl
  | cons l rest ih =>
    intro c hc hall
    have hl' : ((relOfL l == "alternate") && truthyO (hrefOfL l)) = false :=
      hall l (List.mem_cons_self _ _)
    simp only [chooseLink, hc, if_true, hl', Bool.false_eq_true, if_false]
    exact ih c hc (fun x hx => hall x (List.mem_cons_of_mem _ hx))

/-- C8: in the Atom link-selection loop, the first link whose relation is
`alternate` (the default when no relation is given) and which carries a
truthy href overrides whatever default was collected and stops the scan,
so links after it — alternate or not — never change the choice; when no
such link exists, the selection is the first link's href (provided that
link carries one); and the spec's concrete example
`[{rel:"self",href:"A"},{rel:"alternate",href:"B"}]` resolves to `B`. -/
theorem c8_atom_link_selection :
    (∀ L1 : List XNode, ∀ (a : XNode) (L2 : List XNode) (c : Option XNode),
       (∀ l ∈ L1, isAltHref l = false) → isAltHref a = true →
       chooseLink (L1 ++ a :: L2) c = hrefOfL a) ∧
    (∀ (l0 : XNode) (rest : List XNode), truthyO (hrefOfL l0) = true →
       (∀ l ∈ l0 :: rest, isAltHref l = false) →
       chooseLink (l0 :: rest) none = hrefOfL l0) ∧
    (∀ l : XNode, jsGet l "rel" = none → jsGet l "@_rel" = none →
       relOfL l = "alternate") ∧
    chooseLink [linkSelfA, linkAltB] none = some (XNode.strN "B") := by
  refine ⟨?_, ?_, ?_, rfl⟩
  · intro L1
    induction L1 with
    | nil =>
      intro a L2 c _ ha
      have ha' : ((relOfL a == "alternate") && truthyO (hrefOfL a)) = true := ha
      simp only [List.nil_append, chooseLink, ha', if_true]
    | cons l r ih =>
      intro a L2 c hall ha
      have hl' : ((relOfL l == "alternate") && truthyO (hrefOfL l)) = false :=
        hall l (List.mem_cons_self _ _)
      simp only [List.cons_append, chooseLink, hl', Bool.false_eq_true, if_false]
      exact ih a L2 _ (fun x hx => hall x (List.mem_cons_of_mem _ hx)) ha
  · intro l0 rest h0 hall
    have hl' : ((relOfL l0 == "alternate") && truthyO (hrefOfL l0)) = false :=
      hall l0 (List.mem_cons_self _ _)
    have hnone : truthyO none = false := rfl
    simp only [chooseLink, hnone, Bool.false_eq_true, if_false, hl']
    exact chooseLink_keep rest (hrefOfL l0) h0
      (fun x hx => hall x (List.mem_cons_of_mem _ hx))
  · intro l h1 h2
    simp only [relOfL, h1, h2]
    decide

/-- C8 witness: the alternate override stops the scan even with another
alternate after it. -/
theorem c8_atom_link_selection_witness :
    chooseLink [linkSelfA, linkAltB, linkAltB] none = hrefOfL linkAltB :=
  c8_atom_link_selection.1 [linkSelfA] linkAltB [linkAltB] none (by decide) (by decide)

theorem urlsetAltEmits_eq (fromTs urlTs : Option Int) (base : String) :
    ∀ ls : List XNode, urlsetAltEmits fromTs urlTs base ls =
      if includeByFrom urlTs fromTs = true then altResolved base ls else [] := by
  intro ls
  induction ls with
  | nil => simp [urlsetAltEmits, altResolved]
  | cons l rest ih =>
    by_cases hc : (truthyO (hrefOfAlt l) && (relOfUrlsetAlt l == "alternate")) = true
    · simp only [urlsetAltEmits, hc, if_true, altResolved]
      cases hres : resolveURL (jsToStringO (hrefOfAlt l)) base with
      | none =>
        simp only [hres, ih, Option.toList]
        by_cases hinc : includeByFrom urlTs fromTs = true <;> simp [hinc]
      | some a =>
        simp only [hres, ih, Option.toList]
        by_cases hinc : includeByFrom urlTs fromTs = true <;> simp [hinc]
    · have hc' : (truthyO (hrefOfAlt l) && (relOfUrlsetAlt l == "alternate")) = false := by
        simpa using hc
      simp only [urlsetAltEmits, hc', Bool.false_eq_true, if_false, altResolved, ih]
      by_cases hinc : includeByFrom urlTs fromTs = true <;> simp [hinc]

/-- C9 amended: the alternate links of a url-set entry are emitted exactly
when the entry as a whole is included — the entry's `loc` is truthy and
the parent's best timestamp satisfies the inclusion predicate (trivially
satisfied when no bound is active) — and the emitted alternates are
precisely the rel-`alternate`, truthy-href, resolvable children
(`altResolved` consults no timestamp of the link's own); an entry without
a truthy `loc` emits nothing, alternates included. -/
theorem c9_urlset_alternates_amended :
    (∀ (fromTs urlTs : Option Int) (base : String) (ls : List XNode),
       urlsetAltEmits fromTs urlTs base ls =
         if includeByFrom urlTs fromTs = true then altResolved base ls else []) ∧
    (∀ (fromTs : Option Int) (base : String) (it : XNode),
       urlsetEntryEmits fromTs base it =
         if (truthyO (jsGet it "loc") && includeByFrom (urlsetTs it) fromTs) = true then
           (resolveURL (jsToStringO (jsGet it "loc")) base).toList ++
             altResolved base (urlsetLinks it)
         else []) := by
  refine ⟨fun fromTs urlTs base ls => urlsetAltEmits_eq fromTs urlTs base ls, ?_⟩
  intro fromTs base it
  cases fromTs with
  | none =>
    simp only [urlsetEntryEmits, urlsetAltEmits_eq]
    have hib : includeByFrom (urlsetTs it) none = true := rfl
    by_cases hloc : truthyO (jsGet it "loc") = true
    · simp only [hloc, hib, Bool.and_true, if_true]
      cases hres : resolveURL (jsToStringO (jsGet it "loc")) base <;>
        simp [hres, Option.toList]
    · have hloc' : truthyO (jsGet it "loc") = false := by simpa using hloc
      simp [hloc']
  | some f =>
    simp only [urlsetEntryEmits, urlsetAltEmits_eq]
    by_cases hloc : truthyO (jsGet it "loc") = true
    · by_cases hinc : includeByFrom (urlsetTs it) (some f) = true
      · simp only [hloc, hinc, Bool.and_self, Bool.and_true, Bool.true_and, if_true]
        cases hres : resolveURL (jsToStringO (jsGet it "loc")) base <;>
          simp [hres, Option.toList]
      · have hinc' : includeByFrom (urlsetTs it) (some f) = false := by simpa using hinc
        simp [hloc, hinc']
    · have hloc' : truthyO (jsGet it "loc") = false := by simpa using hloc
      simp [hloc']

/-- C9 witness: a concrete entry carrying both a location and one
qualifying alternate follows the amended characterization with no bound
active. -/
theorem c9_urlset_alternates_amended_witness :
    urlsetEntryEmits none "http://h/s.xml" c9EntryLoc =
      if (truthyO (jsGet c9EntryLoc "loc") &&
          includeByFrom (urlsetTs c9EntryLoc) none) = true then
        (resolveURL (jsToStringO (jsGet c9EntryLoc "loc")) "http://h/s.xml").toList ++
          altResolved "http://h/s.xml" (urlsetLinks c9EntryLoc)
      else [] :=
  c9_urlset_alternates_amended.2 none "http://h/s.xml" c9EntryLoc

/-- C9 counterexample: a url-set entry with no `loc` but with an alternate
link whose relation is `alternate`, whose href is truthy and resolvable,
and whose parent timestamp satisfies the (absent) lower bound — the claim
says the alternate is appended, yet the traversal of the one-document
graph returns an empty result list. -/
theorem c9_urlset_alternates_counterexample :
    getSitemapUrls gC9 "http://h/s.xml" none = Except.ok [] ∧
    includeByFrom (urlsetTs c9Entry) none = true ∧
    urlsetLinks c9Entry = [c9Link] ∧
    relOfUrlsetAlt c9Link = "alternate" ∧
    truthyO (hrefOfAlt c9Link) = true ∧
    resolveURL (jsToStringO (hrefOfAlt c9Link)) "http://h/s.xml" = some "http://h/alt" := by
  exact ⟨rfl, rfl, rfl, rfl, rfl, by decide⟩
